import Mathlib

set_option maxRecDepth 10000

/- Shallow embedding of src/lib/fbuf.h (notcurses): a growable, binary-safe
   byte buffer.  Machine integers (size_t / uint64_t) are modelled as Nat;
   subtraction only occurs where the code maintains used <= size, so Nat
   truncated subtraction agrees with the C unsigned subtraction there.  The
   backing region is modelled as a total function Nat → Nat giving the byte
   stored at each offset, wrapped in Option to model the nullable pointer.
   The Linux code path is modelled; mmap/mremap are assumed to succeed
   (mremap preserves contents, so growth leaves the region function
   unchanged), and MAP_ANONYMOUS memory is zero-filled. -/

/-- SIZE_MAX for a 64-bit size_t, i.e. 2^64 - 1. -/
def SIZE_MAX : Nat := 18446744073709551615

/-- BUFSIZ as defined by glibc on Linux. -/
def BUFSIZ : Nat := 8192

/-- struct fbuf: size is the capacity of the backing region, used the number
    of bytes logically in use, buf the region (none models a NULL pointer). -/
structure fbuf where
  size : Nat
  used : Nat
  buf : Option (Nat → Nat)

/-- memcpy semantics: store the byte list s into region m starting at offset
    off, one byte at a time. -/
def storeBytes (m : Nat → Nat) (off : Nat) : List Nat → (Nat → Nat)
  | [] => m
  | b :: rest => storeBytes (fun i => if i = off then b else m i) (off + 1) rest

/-- the logical content of the buffer: the bytes at offsets [0, used). -/
def fbuf_contents (f : fbuf) : List Nat :=
  match f.buf with
  | none => []
  | some m => (List.range f.used).map m

/-- the byte physically stored at offset i of the region (0 for a NULL region). -/
def byteAt (f : fbuf) (i : Nat) : Nat :=
  match f.buf with
  | none => 0
  | some m => m i

/-- fbuf_at: the pointer f->buf + at when at <= f->used, else NULL.  The
    pointer is modelled by the offset it stands for; fbuf_at itself never
    dereferences. -/
def fbuf_at (f : fbuf) (at_ : Nat) : Option Nat :=
  if at_ > f.used then none else some at_

/-- the doubling loop of fbuf_grow: double size while SIZE_MAX / 2 >= size,
    returning the first doubled size whose headroom over used covers n
    (the mremap there is assumed to succeed and preserves contents), or none
    when the loop exits because the margin is exceeded.  The C loop is a
    while loop; fuel 64 is enough for any positive start size, since 64
    doublings of a positive size pass SIZE_MAX / 2 (the C code asserts
    0 != f->size). -/
def growLoop (used n : Nat) : Nat → Nat → Option Nat
  | _, 0 => none
  | size, fuel + 1 =>
    if SIZE_MAX / 2 ≥ size then
      if size * 2 - used < n then growLoop used n (size * 2) fuel
      else some (size * 2)
    else none

/-- fbuf_grow: ensure room for n more bytes.  Returns (0, f) untouched when
    size - used >= n already; otherwise runs the doubling loop, returning 0
    with the enlarged size on success (the region contents are preserved by
    mremap) and -1 with f unchanged when no doubling within the margin
    suffices. -/
def fbuf_grow (f : fbuf) (n : Nat) : Int × fbuf :=
  if f.size - f.used ≥ n then (0, f)
  else
    match growLoop f.used n f.size 64 with
    | some s2 => (0, { f with size := s2 })
    | none => (-1, f)

/-- fbuf_initgrow: first reservation.  small gives max(4096, BUFSIZ) bytes,
    large gives 0x200000 (2MiB).  Allocation is assumed to succeed (the
    hugepage attempt and its process-wide fallback flag only select how the
    memory is obtained, not the resulting state); anonymous mappings are
    zero-filled. -/
def fbuf_initgrow (small : Bool) : Int × fbuf :=
  let sz := if small then (if 4096 > BUFSIZ then 4096 else BUFSIZ) else 0x200000
  (0, { size := sz, used := 0, buf := some (fun _ => 0) })

/-- fbuf_init_small: zero the fields, then initgrow with small = 1. -/
def fbuf_init_small (_f : fbuf) : Int × fbuf := fbuf_initgrow true

/-- fbuf_init: zero the fields, then initgrow with small = 0. -/
def fbuf_init (_f : fbuf) : Int × fbuf := fbuf_initgrow false

/-- fbuf_reset: reset usage without shrinking the buffer. -/
def fbuf_reset (f : fbuf) : fbuf := { f with used := 0 }

/-- fbuf_putc: grow by 1, store c through fbuf_at(f, used) (which is never
    NULL there, since used <= used), and advance used by 1. -/
def fbuf_putc (f : fbuf) (c : Nat) : Int × fbuf :=
  let g := fbuf_grow f 1
  if g.1 ≠ 0 then (-1, g.2)
  else
    match g.2.buf with
    | none => (-1, g.2)
    | some m =>
      (1, { g.2 with used := g.2.used + 1, buf := some (storeBytes m g.2.used [c]) })

/-- fbuf_putn: grow by len, memcpy s to buf + used, advance used by len and
    return len.  The C len parameter is the length of the byte list s. -/
def fbuf_putn (f : fbuf) (s : List Nat) : Int × fbuf :=
  let g := fbuf_grow f s.length
  if g.1 ≠ 0 then (-1, g.2)
  else
    match g.2.buf with
    | none => (-1, g.2)
    | some m =>
      (Int.ofNat s.length,
       { g.2 with used := g.2.used + s.length, buf := some (storeBytes m g.2.used s) })

/-- fbuf_puts: strlen then putn; s models the NUL-delimited text content of
    the C string (the bytes before its terminator). -/
def fbuf_puts (f : fbuf) (s : List Nat) : Int × fbuf := fbuf_putn f s

/-- the decimal digits of n in ASCII, by fuelled recursion on n / 10; fuel 20
    covers every n < 10^20, in particular every 64-bit value. -/
def natDecDigits : Nat → Nat → List Nat
  | 0, _ => []
  | fuel + 1, n => if n < 10 then [48 + n] else natDecDigits fuel (n / 10) ++ [48 + n % 10]

/-- the %d rendering of the integer n: an ASCII minus sign (45) when n is
    negative, then the decimal digits of its absolute value. -/
def decRepr (n : Int) : List Nat :=
  if n < 0 then 45 :: natDecDigits 20 n.natAbs else natDecDigits 20 n.natAbs

/-- snprintf/vsnprintf store semantics into region m at offset off with space
    bound avail: writes min(r, avail - 1) characters of the rendered output
    out followed by a NUL, or nothing at all when avail = 0.  The return
    value r (the full rendered length) is taken separately by the callers. -/
def snprintfStore (m : Nat → Nat) (off avail : Nat) (out : List Nat) : Nat → Nat :=
  if avail = 0 then m else storeBytes m off (out.take (avail - 1) ++ [0])

/-- fbuf_putint: grow by 10 (the C comment: a 32-bit int might require up to
    10 digits), snprintf %d into buf + used with bound size - used, fail
    returning -1 when the rendered length r exceeds the bound (the C code
    asserts this cannot happen), else advance used by r. -/
def fbuf_putint (f : fbuf) (n : Int) : Int × fbuf :=
  let g := fbuf_grow f 10
  if g.1 ≠ 0 then (-1, g.2)
  else
    match g.2.buf with
    | none => (-1, g.2)
    | some m =>
      let avail := g.2.size - g.2.used
      let out := decRepr n
      let r := out.length
      let m2 := snprintfStore m g.2.used avail out
      if r > avail then (-1, { g.2 with buf := some m2 })
      else (Int.ofNat r, { g.2 with used := g.2.used + r, buf := some m2 })

/-- fbuf_printf: grow by BUFSIZ, vsnprintf into buf + used with bound
    size - used, fail returning -1 when the rendered length r is >= the
    bound, else advance used by r.  The fmt/args pair is abstracted by the
    byte list out that vsnprintf would render from it. -/
def fbuf_printf (f : fbuf) (out : List Nat) : Int × fbuf :=
  let g := fbuf_grow f BUFSIZ
  if g.1 < 0 then (-1, g.2)
  else
    match g.2.buf with
    | none => (-1, g.2)
    | some m =>
      let avail := g.2.size - g.2.used
      let r := out.length
      let m2 := snprintfStore m g.2.used avail out
      if r ≥ avail then (-1, { g.2 with buf := some m2 })
      else (Int.ofNat r, { g.2 with used := g.2.used + r, buf := some m2 })

/-- fbuf_emit: -1 when the escape is NULL, else puts, collapsing the result
    to 0 on success and -1 on failure. -/
def fbuf_emit (f : fbuf) (esc : Option (List Nat)) : Int × fbuf :=
  match esc with
  | none => (-1, f)
  | some s =>
    let p := fbuf_puts f s
    if p.1 < 0 then (-1, p.2) else (0, p.2)

/-- fbuf_free: munmap the region when non-NULL, then zero size and used and
    clear buf. -/
def fbuf_free (_f : fbuf) : fbuf := { size := 0, used := 0, buf := none }

/-- the C EOF constant. -/
def cEOF : Int := -1

/-- a byte sink (FILE): the bytes successfully written to it so far and the
    number of successful flushes. -/
structure File where
  written : List Nat
  flushes : Nat

/-- fwrite of the byte list data as a single item of size data.length:
    returns the item count 1 and appends the data on success, else 0 with
    the sink unchanged.  The ok flag models the I/O outcome. -/
def fwriteModel (data : List Nat) (fp : File) (ok : Bool) : Nat × File :=
  if ok then (1, { fp with written := fp.written ++ data }) else (0, fp)

/-- fflush: returns 0 and records the flush on success, else EOF with the
    sink unchanged.  The ok flag models the I/O outcome. -/
def fflushModel (fp : File) (ok : Bool) : Int × File :=
  if ok then (0, { fp with flushes := fp.flushes + 1 }) else (cEOF, fp)

/-- fbuf_finalize: if used is nonzero, fwrite the contents as one item and
    record failure as -1; if flushfp is set and no failure so far, fflush
    and record failure as -1; free the fbuf either way and return the
    status.  writeOk / flushOk model the outcomes of the two I/O calls. -/
def fbuf_finalize (f : fbuf) (fp : File) (flushfp writeOk flushOk : Bool) :
    Int × File × fbuf :=
  let step1 : Int × File :=
    if f.used ≠ 0 then
      let w := fwriteModel (fbuf_contents f) fp writeOk
      if w.1 ≠ 1 then (-1, w.2) else (0, w.2)
    else (0, fp)
  let step2 : Int × File :=
    if flushfp = true ∧ step1.1 = 0 then
      let fl := fflushModel step1.2 flushOk
      if fl.1 = cEOF then (-1, fl.2) else (step1.1, fl.2)
    else step1
  (step2.1, step2.2, fbuf_free f)

/-- a caller-side sequence of putn writes, stopping at the first failure as
    every notcurses caller of fbuf does. -/
def putnSeq (f : fbuf) : List (List Nat) → Int × fbuf
  | [] => (0, f)
  | s :: rest =>
    let p := fbuf_putn f s
    if p.1 < 0 then (-1, p.2) else putnSeq p.2 rest

/-- the basic buffer invariant: the bytes in use never exceed the capacity. -/
def fbufInv (f : fbuf) : Prop := f.used ≤ f.size

/- Lemma kit: reads of storeBytes, contents after a store, and a complete
   characterisation of the doubling loop. -/

theorem storeBytes_read_lt (s : List Nat) : ∀ (m : Nat → Nat) (off i : Nat),
    i < off → storeBytes m off s i = m i := by
  induction s with
  | nil => intro m off i _; rfl
  | cons b t ih =>
    intro m off i h
    simp only [storeBytes]
    rw [ih _ _ _ (by omega)]
    simp [Nat.ne_of_lt h]

theorem range_map_store_ge (s : List Nat) (m : Nat → Nat) (off : Nat) :
    (List.range off).map (storeBytes m off s) = (List.range off).map m :=
  List.map_congr_left (fun i hi => storeBytes_read_lt s m off i (List.mem_range.mp hi))

theorem contents_range_store (s : List Nat) : ∀ (m : Nat → Nat) (off : Nat),
    (List.range (off + s.length)).map (storeBytes m off s) = (List.range off).map m ++ s := by
  induction s with
  | nil => intro m off; simp [storeBytes]
  | cons b t ih =>
    intro m off
    have h1 : off + (b :: t).length = (off + 1) + t.length := by
      simp [List.length_cons]; omega
    rw [h1]
    simp only [storeBytes]
    rw [ih]
    rw [List.range_succ, List.map_append]
    have h2 : (List.range off).map (fun i => if i = off then b else m i)
        = (List.range off).map m :=
      List.map_congr_left (fun i hi => by
        have hlt : i < off := List.mem_range.mp hi
        simp [Nat.ne_of_lt hlt])
    rw [h2]
    simp

theorem growLoop_sound : ∀ (fuel u n s s2 : Nat), growLoop u n s fuel = some s2 →
    s ≤ s2 ∧ n ≤ s2 - u ∧ s2 ≤ SIZE_MAX - 1 ∧ ∃ k, 1 ≤ k ∧ s2 = s * 2 ^ k := by
  intro fuel
  induction fuel with
  | zero => intro u n s s2 h; simp [growLoop] at h
  | succ fl ih =>
    intro u n s s2 h
    simp only [growLoop] at h
    by_cases hg : SIZE_MAX / 2 ≥ s
    · rw [if_pos hg] at h
      have hhalf : SIZE_MAX / 2 = 9223372036854775807 := rfl
      have hmax : SIZE_MAX = 18446744073709551615 := rfl
      by_cases hc : s * 2 - u < n
      · rw [if_pos hc] at h
        obtain ⟨hle, hn, hbound, k, hk1, hk⟩ := ih u n (s * 2) s2 h
        refine ⟨by omega, hn, hbound, k + 1, by omega, ?_⟩
        rw [hk]; ring
      · rw [if_neg hc] at h
        have hs2 : s2 = s * 2 := by
          have := Option.some.inj h; omega
        refine ⟨by omega, by omega, by omega, 1, le_refl 1, by omega⟩
    · rw [if_neg hg] at h
      exact absurd h (by simp)

theorem growLoop_complete : ∀ (k u n s fuel : Nat), 0 < n →
    u + n ≤ s * 2 ^ (k + 1) → (∀ j, j ≤ k → s * 2 ^ j < u + n) →
    s * 2 ^ k ≤ SIZE_MAX / 2 → k + 1 ≤ fuel →
    growLoop u n s fuel = some (s * 2 ^ (k + 1)) := by
  intro k
  induction k with
  | zero =>
    intro u n s fuel hn hle hlt hm hf
    cases fuel with
    | zero => omega
    | succ fl =>
      simp only [growLoop]
      have hg : SIZE_MAX / 2 ≥ s := by
        have := hm; rw [pow_zero, mul_one] at this; exact this
      rw [if_pos hg]
      have hns : ¬ (s * 2 - u < n) := by
        have : u + n ≤ s * 2 := by
          have := hle; rw [pow_one] at this; exact this
        omega
      rw [if_neg hns]
      rw [pow_one]
  | succ k ih =>
    intro u n s fuel hn hle hlt hm hf
    cases fuel with
    | zero => omega
    | succ fl =>
      simp only [growLoop]
      have hpow1 : (1 : Nat) ≤ 2 ^ (k + 1) := Nat.one_le_two_pow
      have hg : SIZE_MAX / 2 ≥ s := by
        have h1 : s * 1 ≤ s * 2 ^ (k + 1) := Nat.mul_le_mul_left s hpow1
        omega
      rw [if_pos hg]
      have hlt1 : s * 2 - u < n := by
        have := hlt 1 (by omega)
        rw [pow_one] at this
        omega
      rw [if_pos hlt1]
      have heq : ∀ j : Nat, s * 2 * 2 ^ j = s * 2 ^ (j + 1) := by
        intro j; ring
      have := ih u n (s * 2) fl hn
        (by rw [heq]; exact hle)
        (by intro j hj; rw [heq]; exact hlt (j + 1) (by omega))
        (by rw [heq]; exact hm)
        (by omega)
      rw [this, heq]

theorem fbuf_grow_state (f : fbuf) (n : Nat) :
    (fbuf_grow f n).2.used = f.used ∧ (fbuf_grow f n).2.buf = f.buf ∧
    f.size ≤ (fbuf_grow f n).2.size ∧
    ((fbuf_grow f n).1 ≠ 0 → (fbuf_grow f n).2 = f) := by
  unfold fbuf_grow
  by_cases hc : f.size - f.used ≥ n
  · rw [if_pos hc]; exact ⟨rfl, rfl, le_refl _, fun _ => rfl⟩
  · rw [if_neg hc]
    cases h : growLoop f.used n f.size 64 with
    | none => exact ⟨rfl, rfl, le_refl _, fun _ => rfl⟩
    | some s2 =>
      obtain ⟨hle, _, _, _⟩ := growLoop_sound 64 f.used n f.size s2 h
      exact ⟨rfl, rfl, hle, fun hne => absurd rfl hne⟩

theorem fbuf_grow_zero_le (f : fbuf) (n : Nat) (h : f.used ≤ f.size)
    (hz : (fbuf_grow f n).1 = 0) : f.used + n ≤ (fbuf_grow f n).2.size := by
  unfold fbuf_grow at hz ⊢
  by_cases hc : f.size - f.used ≥ n
  · rw [if_pos hc]
    show f.used + n ≤ f.size
    omega
  · rw [if_neg hc] at hz ⊢
    cases hgl : growLoop f.used n f.size 64 with
    | none =>
      rw [hgl] at hz
      simp at hz
    | some s2 =>
      obtain ⟨hle, hn, _, _⟩ := growLoop_sound 64 f.used n f.size s2 hgl
      show f.used + n ≤ s2
      omega

theorem fbuf_grow_success (f : fbuf) (n : Nat) (h0 : 0 < f.size) (h : f.used ≤ f.size)
    (hok : ∃ k, f.used + n ≤ f.size * 2 ^ k ∧ f.size * 2 ^ k ≤ SIZE_MAX - 1) :
    (fbuf_grow f n).1 = 0 ∧
    ∃ k, (fbuf_grow f n).2.size = f.size * 2 ^ k ∧ f.used + n ≤ f.size * 2 ^ k ∧
      ∀ j, f.used + n ≤ f.size * 2 ^ j → k ≤ j := by
  unfold fbuf_grow
  by_cases hc : f.size - f.used ≥ n
  · rw [if_pos hc]
    refine ⟨rfl, 0, by simp, by simp; omega, fun j _ => Nat.zero_le j⟩
  · rw [if_neg hc]
    have hn : 0 < n := by omega
    have hex : ∃ k, f.used + n ≤ f.size * 2 ^ k := ⟨hok.choose, hok.choose_spec.1⟩
    have hKspec : f.used + n ≤ f.size * 2 ^ Nat.find hex := Nat.find_spec hex
    have hKmin : ∀ j, f.used + n ≤ f.size * 2 ^ j → Nat.find hex ≤ j :=
      fun j hj => Nat.find_min' hex hj
    obtain ⟨k0, hk0a, hk0b⟩ := hok
    have hKbound : f.size * 2 ^ Nat.find hex ≤ SIZE_MAX - 1 :=
      le_trans (Nat.mul_le_mul_left _ (Nat.pow_le_pow_right (by norm_num) (hKmin k0 hk0a))) hk0b
    have hK1 : 1 ≤ Nat.find hex := by
      by_contra hlt
      have h0' : Nat.find hex = 0 := by omega
      rw [h0', pow_zero, mul_one] at hKspec
      omega
    obtain ⟨K1, hK1eq⟩ : ∃ m, Nat.find hex = m + 1 := ⟨Nat.find hex - 1, by omega⟩
    have hmax : SIZE_MAX = 18446744073709551615 := rfl
    have hhalf : SIZE_MAX / 2 = 9223372036854775807 := rfl
    have hmargin : f.size * 2 ^ K1 ≤ SIZE_MAX / 2 := by
      have h2 : f.size * 2 ^ K1 * 2 = f.size * 2 ^ (K1 + 1) := by ring
      rw [hK1eq] at hKbound
      omega
    have hfuel : K1 + 1 ≤ 64 := by
      by_contra hgt
      have h1 : (2 : Nat) ^ 65 ≤ 2 ^ (K1 + 1) := Nat.pow_le_pow_right (by norm_num) (by omega)
      have h2 : 2 ^ (K1 + 1) ≤ f.size * 2 ^ (K1 + 1) := by
        have := Nat.mul_le_mul_right (2 ^ (K1 + 1)) h0
        simpa using this
      have h3 : (2 : Nat) ^ 65 = 36893488147419103232 := by norm_num
      rw [hK1eq] at hKbound
      omega
    have hlt : ∀ j, j ≤ K1 → f.size * 2 ^ j < f.used + n := by
      intro j hj
      by_contra hge
      push_neg at hge
      have := hKmin j hge
      omega
    have hcomp := growLoop_complete K1 f.used n f.size 64 hn
      (by rw [← hK1eq]; exact hKspec) hlt hmargin hfuel
    rw [hcomp]
    refine ⟨rfl, K1 + 1, rfl, by rw [← hK1eq]; exact hKspec, ?_⟩
    intro j hj
    rw [← hK1eq]
    exact hKmin j hj

theorem fbuf_putn_spec (f : fbuf) (m : Nat → Nat) (s : List Nat)
    (h0 : 0 < f.size) (hinv : f.used ≤ f.size) (hm : f.buf = some m)
    (hok : ∃ k, f.used + s.length ≤ f.size * 2 ^ k ∧ f.size * 2 ^ k ≤ SIZE_MAX - 1) :
    (fbuf_putn f s).1 = Int.ofNat s.length ∧
    (fbuf_putn f s).2.used = f.used + s.length ∧
    (fbuf_putn f s).2.buf = some (storeBytes m f.used s) ∧
    fbuf_contents (fbuf_putn f s).2 = fbuf_contents f ++ s ∧
    (∃ k, (fbuf_putn f s).2.size = f.size * 2 ^ k ∧ f.used + s.length ≤ f.size * 2 ^ k ∧
      ∀ j, f.used + s.length ≤ f.size * 2 ^ j → k ≤ j) ∧
    f.used + s.length ≤ (fbuf_putn f s).2.size ∧ 0 < (fbuf_putn f s).2.size := by
  obtain ⟨hz, k, hsz, hszk, hmin⟩ := fbuf_grow_success f s.length h0 hinv hok
  obtain ⟨hgu, hgb, hgs, -⟩ := fbuf_grow_state f s.length
  have hle := fbuf_grow_zero_le f s.length hinv hz
  have hbuf : (fbuf_grow f s.length).2.buf = some m := by rw [hgb, hm]
  simp only [fbuf_putn, hz, hbuf, ne_eq, not_true_eq_false, if_false, ite_false]
  constructor
  · simp [hz]
  refine ⟨by simp [hgu], by simp [hgu], ?_, ⟨k, hsz, hszk, hmin⟩, by simpa using hle, by omega⟩
  show fbuf_contents _ = _
  simp only [fbuf_contents, hgu]
  rw [contents_range_store, hm]

theorem fbuf_putn_fits (f : fbuf) (m : Nat → Nat) (s : List Nat)
    (hm : f.buf = some m) (hfit : f.used + s.length ≤ f.size) :
    fbuf_putn f s = (Int.ofNat s.length,
      { size := f.size, used := f.used + s.length, buf := some (storeBytes m f.used s) }) := by
  have hg : fbuf_grow f s.length = (0, f) := by
    unfold fbuf_grow; rw [if_pos (by omega)]
  simp only [fbuf_putn, hg, hm]
  simp

theorem two_pow_le_two_pow_63 (e k : Nat) (h : 2 ^ (e + k) ≤ SIZE_MAX - 1) :
    (2 : Nat) ^ (e + k) ≤ 2 ^ 63 := by
  have hmax : SIZE_MAX = 18446744073709551615 := rfl
  have h63 : (2 : Nat) ^ 63 = 9223372036854775808 := by norm_num
  by_contra hgt
  push_neg at hgt
  have h1 : (2 : Nat) ^ 64 ≤ 2 ^ (e + k) := by
    have : 64 ≤ e + k := by
      by_contra hlt
      push_neg at hlt
      have : (2 : Nat) ^ (e + k) ≤ 2 ^ 63 := Nat.pow_le_pow_right (by norm_num) (by omega)
      omega
    exact Nat.pow_le_pow_right (by norm_num) this
  have h2 : (2 : Nat) ^ 64 = 18446744073709551616 := by norm_num
  omega

theorem putnSeq_spec : ∀ (chunks : List (List Nat)) (f : fbuf) (m : Nat → Nat),
    f.buf = some m → f.used ≤ f.size → (∃ e, f.size = 2 ^ e) → f.size ≤ 2 ^ 63 →
    f.used + (chunks.map List.length).sum ≤ 2 ^ 63 →
    0 ≤ (putnSeq f chunks).1 ∧
    (putnSeq f chunks).2.used = f.used + (chunks.map List.length).sum ∧
    fbuf_contents (putnSeq f chunks).2 = fbuf_contents f ++ chunks.flatten := by
  intro chunks
  induction chunks with
  | nil =>
    intro f m _ _ _ _ _
    simp [putnSeq]
  | cons s rest ih =>
    intro f m hm hinv hpow hbound htot
    obtain ⟨e, he⟩ := hpow
    have h0 : 0 < f.size := by
      rw [he]; exact pow_pos (by norm_num) e
    have he63 : e ≤ 63 := by
      by_contra h
      push_neg at h
      have h1 : (2 : Nat) ^ 64 ≤ 2 ^ e := Nat.pow_le_pow_right (by norm_num) (by omega)
      have h2 : (2 : Nat) ^ 64 = 18446744073709551616 := by norm_num
      have h3 : (2 : Nat) ^ 63 = 9223372036854775808 := by norm_num
      omega
    have hsum : s.length ≤ (List.map List.length (s :: rest)).sum := by
      simp
    have hsz63 : f.size * 2 ^ (63 - e) = 2 ^ 63 := by
      rw [he, ← pow_add]
      congr 1
      omega
    have hok : ∃ k, f.used + s.length ≤ f.size * 2 ^ k ∧ f.size * 2 ^ k ≤ SIZE_MAX - 1 := by
      refine ⟨63 - e, ?_, ?_⟩
      · rw [hsz63]; omega
      · rw [hsz63]
        norm_num [SIZE_MAX]
    obtain ⟨hr, hused, hbuf, hcont, ⟨k, hsz, hszk, hmin⟩, hle, hpos⟩ :=
      fbuf_putn_spec f m s h0 hinv hm hok
    have hk63 : k ≤ 63 - e := hmin (63 - e) (by rw [hsz63]; omega)
    have hsz2 : (fbuf_putn f s).2.size = 2 ^ (e + k) := by
      rw [hsz, he, ← pow_add]
    have hsz2le : (fbuf_putn f s).2.size ≤ 2 ^ 63 := by
      rw [hsz2]
      exact Nat.pow_le_pow_right (by norm_num) (by omega)
    have hnot : ¬ ((fbuf_putn f s).1 < 0) := by
      rw [hr]
      exact not_lt.mpr (Int.ofNat_nonneg s.length)
    have hstep := ih (fbuf_putn f s).2 (storeBytes m f.used s) hbuf (by omega)
      ⟨e + k, hsz2⟩ hsz2le
      (by
        rw [hused]
        have : (List.map List.length (s :: rest)).sum
            = s.length + (List.map List.length rest).sum := by simp
        omega)
    simp only [putnSeq, hnot, if_false, ite_false]
    refine ⟨hstep.1, ?_, ?_⟩
    · rw [hstep.2.1, hused]
      simp
      omega
    · rw [hstep.2.2, hcont]
      simp [List.append_assoc]

/- The claims. -/

/-- C7: for every buffer and offset, fbuf_at returns the address of the byte
    at that offset when offset <= used — under the invariant used <= size
    that address lies within the backing region (offset = used being the
    append position one past the last byte in use, the way every write
    operation uses it) — and NULL when offset > used; it never
    dereferences. -/
theorem spec_C7 (f : fbuf) (off : Nat) :
    (off ≤ f.used → fbuf_at f off = some off ∧ (f.used ≤ f.size → off ≤ f.size)) ∧
    (f.used < off → fbuf_at f off = none) := by
  unfold fbuf_at
  constructor
  · intro h
    rw [if_neg (by omega)]
    exact ⟨rfl, fun h2 => by omega⟩
  · intro h
    rw [if_pos (by omega)]

theorem spec_C7_witness :
    (fbuf_at { size := 8192, used := 5, buf := some (fun _ => 0) } 3 = some 3) ∧
    (fbuf_at { size := 8192, used := 5, buf := some (fun _ => 0) } 6 = none) :=
  ⟨((spec_C7 { size := 8192, used := 5, buf := some (fun _ => 0) } 3).1 (by decide)).1,
   (spec_C7 { size := 8192, used := 5, buf := some (fun _ => 0) } 6).2 (by decide)⟩

/-- C9: PutByte(c) is the same operation as PutBytes of the single-element
    sequence [c]: identical return value and identical resulting buffer
    state (length, capacity, region contents). -/
theorem spec_C9 (f : fbuf) (c : Nat) : fbuf_putc f c = fbuf_putn f [c] := rfl

/-- C10: on an initialized buffer, PutBytes of the empty sequence succeeds,
    returns 0, and is the identity on the buffer state: the grow request of
    0 extra bytes is treated as already satisfied (size - used >= 0 always),
    the memcpy of 0 bytes changes nothing, and used advances by 0. -/
theorem spec_C10 (f : fbuf) (m : Nat → Nat) (hm : f.buf = some m) :
    fbuf_putn f [] = (0, f) := by
  obtain ⟨sz, u, b⟩ := f
  simp only at hm
  subst hm
  simp [fbuf_putn, fbuf_grow, storeBytes]

theorem spec_C10_witness :
    fbuf_putn { size := 8192, used := 3, buf := some (fun _ => 0) } [] =
      (0, { size := 8192, used := 3, buf := some (fun _ => 0) }) :=
  spec_C10 { size := 8192, used := 3, buf := some (fun _ => 0) } (fun _ => 0) rfl

/-- C8 (amended): Reset sets length to 0 leaving capacity and region
    unchanged, and Reset is idempotent; Reset followed by PutBytes(x) for
    any x that fits within the existing capacity yields length len(x),
    content x, and the capacity from before the Reset.  (For x larger than
    the capacity the write still yields length len(x) and content x, but
    grows the capacity — see the counterexample — so the capacity clause
    needs the fits hypothesis.) -/
theorem spec_C8 :
    (∀ f : fbuf, (fbuf_reset f).used = 0 ∧ (fbuf_reset f).size = f.size ∧
      (fbuf_reset f).buf = f.buf ∧ fbuf_reset (fbuf_reset f) = fbuf_reset f) ∧
    (∀ (f : fbuf) (m : Nat → Nat) (x : List Nat), f.buf = some m → x.length ≤ f.size →
      (fbuf_putn (fbuf_reset f) x).1 = Int.ofNat x.length ∧
      (fbuf_putn (fbuf_reset f) x).2.used = x.length ∧
      fbuf_contents (fbuf_putn (fbuf_reset f) x).2 = x ∧
      (fbuf_putn (fbuf_reset f) x).2.size = f.size) := by
  constructor
  · intro f
    exact ⟨rfl, rfl, rfl, rfl⟩
  · intro f m x hm hfit
    have hr : (fbuf_reset f).buf = some m := hm
    have hfit2 : (fbuf_reset f).used + x.length ≤ (fbuf_reset f).size := by
      show 0 + x.length ≤ f.size
      omega
    rw [fbuf_putn_fits (fbuf_reset f) m x hr hfit2]
    have h0 : (fbuf_reset f).used = 0 := rfl
    refine ⟨rfl, ?_, ?_, rfl⟩
    · show (fbuf_reset f).used + x.length = x.length
      rw [h0]
      omega
    · show (List.range ((fbuf_reset f).used + x.length)).map
        (storeBytes m (fbuf_reset f).used x) = x
      rw [h0, contents_range_store]
      simp

theorem spec_C8_witness :
    (fbuf_putn (fbuf_reset { size := 8192, used := 3, buf := some (fun _ => 0) })
        [104, 105]).2.used = 2 ∧
    fbuf_contents (fbuf_putn (fbuf_reset { size := 8192, used := 3, buf := some (fun _ => 0) })
        [104, 105]).2 = [104, 105] ∧
    (fbuf_putn (fbuf_reset { size := 8192, used := 3, buf := some (fun _ => 0) })
        [104, 105]).2.size = 8192 := by
  have h := spec_C8.2 { size := 8192, used := 3, buf := some (fun _ => 0) } (fun _ => 0)
    [104, 105] rfl (by decide)
  exact ⟨h.2.1, h.2.2.1, h.2.2.2⟩

/-- C8 counterexample: on a capacity-8192 buffer, Reset followed by PutBytes
    of a 10000-byte sequence yields capacity 16384, not the pre-Reset
    capacity 8192, refuting the claim read for arbitrary x (length and
    content do come out as claimed; only the capacity clause fails). -/
theorem spec_C8_cex :
    ¬ ((fbuf_putn (fbuf_reset { size := 8192, used := 3, buf := some (fun _ => 0) })
          (List.replicate 10000 65)).2.used = 10000 ∧
       fbuf_contents (fbuf_putn (fbuf_reset { size := 8192, used := 3, buf := some (fun _ => 0) })
          (List.replicate 10000 65)).2 = List.replicate 10000 65 ∧
       (fbuf_putn (fbuf_reset { size := 8192, used := 3, buf := some (fun _ => 0) })
          (List.replicate 10000 65)).2.size = 8192) := by
  intro h
  obtain ⟨-, -, -, -, ⟨k, hsz, hk, hmin⟩, -, -⟩ :=
    fbuf_putn_spec (fbuf_reset { size := 8192, used := 3, buf := some (fun _ => 0) })
      (fun _ => 0) (List.replicate 10000 65) (by decide) (by decide) rfl
      ⟨1, by rw [List.length_replicate]; decide, by decide⟩
  have hk1 : k ≤ 1 := hmin 1 (by rw [List.length_replicate]; decide)
  have hk0 : k ≠ 0 := by
    intro h0
    rw [h0, List.length_replicate] at hk
    revert hk
    decide
  have hke : k = 1 := by omega
  rw [hke] at hsz
  rw [h.2.2] at hsz
  revert hsz
  decide

/-- C1: growth is transparent.  (a) A single PutBytes on an initialized
    buffer succeeds whenever some power-of-two multiple of the capacity both
    holds length + requested and stays within the overflow margin; it
    returns len, appends exactly the given bytes to the logical content, and
    leaves the capacity at the smallest power-of-two multiple of the prior
    capacity sufficient to hold length + requested (the multiplier 2^0 = 1
    when no growth was needed).  (b) Any sequence of PutBytes writes on a
    buffer with power-of-two capacity (as initialization produces) succeeds
    as long as used plus the total requested stays within 2^63, and yields
    the concatenated logical content, exactly as with unbounded capacity.
    The witness is the concrete scenario: a 5000-byte write to a 4096-byte
    buffer succeeds leaving capacity 8192 and length 5000. -/
theorem spec_C1 :
    (∀ (f : fbuf) (m : Nat → Nat) (s : List Nat),
      0 < f.size → f.used ≤ f.size → f.buf = some m →
      (∃ k, f.used + s.length ≤ f.size * 2 ^ k ∧ f.size * 2 ^ k ≤ SIZE_MAX - 1) →
      (fbuf_putn f s).1 = Int.ofNat s.length ∧
      (fbuf_putn f s).2.used = f.used + s.length ∧
      fbuf_contents (fbuf_putn f s).2 = fbuf_contents f ++ s ∧
      (∃ k, (fbuf_putn f s).2.size = f.size * 2 ^ k ∧ f.used + s.length ≤ f.size * 2 ^ k ∧
        ∀ j, f.used + s.length ≤ f.size * 2 ^ j → k ≤ j)) ∧
    (∀ (chunks : List (List Nat)) (f : fbuf) (m : Nat → Nat),
      f.buf = some m → f.used ≤ f.size → (∃ e, f.size = 2 ^ e) → f.size ≤ 2 ^ 63 →
      f.used + (chunks.map List.length).sum ≤ 2 ^ 63 →
      0 ≤ (putnSeq f chunks).1 ∧
      (putnSeq f chunks).2.used = f.used + (chunks.map List.length).sum ∧
      fbuf_contents (putnSeq f chunks).2 = fbuf_contents f ++ chunks.flatten) := by
  constructor
  · intro f m s h0 hinv hm hok
    obtain ⟨h1, h2, -, h4, h5, -, -⟩ := fbuf_putn_spec f m s h0 hinv hm hok
    exact ⟨h1, h2, h4, h5⟩
  · exact putnSeq_spec

theorem spec_C1_witness :
    (fbuf_putn { size := 4096, used := 0, buf := some (fun _ => 0) }
        (List.replicate 5000 65)).1 = Int.ofNat 5000 ∧
    (fbuf_putn { size := 4096, used := 0, buf := some (fun _ => 0) }
        (List.replicate 5000 65)).2.used = 5000 ∧
    (fbuf_putn { size := 4096, used := 0, buf := some (fun _ => 0) }
        (List.replicate 5000 65)).2.size = 8192 := by
  obtain ⟨h1, h2, -, ⟨k, hsz, hk, hmin⟩⟩ :=
    spec_C1.1 { size := 4096, used := 0, buf := some (fun _ => 0) } (fun _ => 0)
      (List.replicate 5000 65) (by decide) (by decide) rfl
      ⟨1, by rw [List.length_replicate]; decide, by decide⟩
  have hk1 : k ≤ 1 := hmin 1 (by rw [List.length_replicate]; decide)
  have hk0 : k ≠ 0 := by
    intro h0
    rw [h0, List.length_replicate] at hk
    revert hk
    decide
  have hke : k = 1 := by omega
  rw [hke] at hsz
  rw [List.length_replicate] at h1 h2
  refine ⟨h1, ?_, ?_⟩
  · rw [h2]
  · rw [hsz]
    decide

/-- C3 (amended): initialization yields a power-of-two capacity of at most
    2^63, and every growth step preserves both power-of-two-ness and the
    bound capacity <= 2^63.  The exact safety margin enforced by the code is
    2^63 = SIZE_MAX / 2 + 1, not SIZE_MAX / 2 itself: the guard
    SIZE_MAX / 2 >= size is checked before the doubling, so the doubled
    capacity may overshoot SIZE_MAX / 2 by one bit (see the
    counterexample). -/
theorem spec_C3 :
    (∀ f0 : fbuf, ∃ e, (fbuf_init_small f0).2.size = 2 ^ e ∧ 2 ^ e ≤ 2 ^ 63) ∧
    (∀ f0 : fbuf, ∃ e, (fbuf_init f0).2.size = 2 ^ e ∧ 2 ^ e ≤ 2 ^ 63) ∧
    (∀ (f : fbuf) (n e : Nat), f.size = 2 ^ e → f.size ≤ 2 ^ 63 →
      ∃ e2, (fbuf_grow f n).2.size = 2 ^ e2 ∧ (fbuf_grow f n).2.size ≤ 2 ^ 63) := by
  refine ⟨fun f0 => ⟨13, rfl, by decide⟩, fun f0 => ⟨21, rfl, by decide⟩, ?_⟩
  intro f n e he hle
  unfold fbuf_grow
  by_cases hc : f.size - f.used ≥ n
  · rw [if_pos hc]
    exact ⟨e, he, hle⟩
  · rw [if_neg hc]
    cases hgl : growLoop f.used n f.size 64 with
    | none => exact ⟨e, he, hle⟩
    | some s2 =>
      obtain ⟨-, -, hb, k, -, hk⟩ := growLoop_sound 64 f.used n f.size s2 hgl
      have hs2 : s2 = 2 ^ (e + k) := by
        rw [hk, he, ← pow_add]
      refine ⟨e + k, ?_, ?_⟩
      · show s2 = 2 ^ (e + k)
        exact hs2
      · show s2 ≤ 2 ^ 63
        rw [hs2] at hb ⊢
        exact two_pow_le_two_pow_63 e k hb

/-- C3 counterexample: from the freshly initialized small buffer (capacity
    8192), EnsureCapacity(2^63) succeeds and leaves capacity 2^63, which
    strictly exceeds SIZE_MAX / 2 = 2^63 - 1, refuting the claimed
    invariant capacity <= SIZE_MAX / 2 as stated. -/
theorem spec_C3_cex :
    (fbuf_grow (fbuf_init_small { size := 0, used := 0, buf := none }).2
        9223372036854775808).1 = 0 ∧
    (fbuf_grow (fbuf_init_small { size := 0, used := 0, buf := none }).2
        9223372036854775808).2.size = 9223372036854775808 ∧
    SIZE_MAX / 2 < 9223372036854775808 := by
  refine ⟨?_, ?_, ?_⟩ <;> decide

theorem spec_C3_witness :
    ∃ e2, (fbuf_grow { size := 8192, used := 0, buf := some (fun _ => 0) } 20000).2.size = 2 ^ e2 ∧
      (fbuf_grow { size := 8192, used := 0, buf := some (fun _ => 0) } 20000).2.size ≤ 2 ^ 63 :=
  spec_C3.2.2 { size := 8192, used := 0, buf := some (fun _ => 0) } 20000 13 (by decide) (by decide)

/- Further lemma kit: congruence of contents, the effect of a bounded
   snprintf store on the bytes below its offset, and case analyses of the
   write operations (grow outcome, NULL region, format overflow). -/

theorem contents_congr (f g : fbuf) (hu : g.used = f.used) (hb : g.buf = f.buf) :
    fbuf_contents g = fbuf_contents f := by
  unfold fbuf_contents
  rw [hu, hb]

theorem snprintf_keeps_below (m : Nat → Nat) (off avail : Nat) (out : List Nat) (u : Nat)
    (hu : u ≤ off) :
    (List.range u).map (snprintfStore m off avail out) = (List.range u).map m := by
  unfold snprintfStore
  split
  · rfl
  · refine List.map_congr_left (fun i hi => ?_)
    exact storeBytes_read_lt _ m off i (by have := List.mem_range.mp hi; omega)

theorem fbuf_putn_cases (f : fbuf) (s : List Nat) :
    ((fbuf_grow f s.length).1 ≠ 0 ∧ fbuf_putn f s = (-1, (fbuf_grow f s.length).2)) ∨
    ((fbuf_grow f s.length).1 = 0 ∧ (fbuf_grow f s.length).2.buf = none ∧
      fbuf_putn f s = (-1, (fbuf_grow f s.length).2)) ∨
    (∃ m, (fbuf_grow f s.length).1 = 0 ∧ (fbuf_grow f s.length).2.buf = some m ∧
      fbuf_putn f s = (Int.ofNat s.length,
        { size := (fbuf_grow f s.length).2.size,
          used := (fbuf_grow f s.length).2.used + s.length,
          buf := some (storeBytes m (fbuf_grow f s.length).2.used s) })) := by
  by_cases hz : (fbuf_grow f s.length).1 ≠ 0
  · exact Or.inl ⟨hz, by unfold fbuf_putn; rw [if_pos hz]⟩
  · push_neg at hz
    cases hb : (fbuf_grow f s.length).2.buf with
    | none =>
      refine Or.inr (Or.inl ⟨hz, rfl, ?_⟩)
      unfold fbuf_putn
      rw [if_neg (by simp [hz]), hb]
    | some m =>
      refine Or.inr (Or.inr ⟨m, hz, rfl, ?_⟩)
      unfold fbuf_putn
      rw [if_neg (by simp [hz]), hb]

theorem fbuf_putint_cases (f : fbuf) (n : Int) :
    ((fbuf_grow f 10).1 ≠ 0 ∧ fbuf_putint f n = (-1, (fbuf_grow f 10).2)) ∨
    ((fbuf_grow f 10).1 = 0 ∧ (fbuf_grow f 10).2.buf = none ∧
      fbuf_putint f n = (-1, (fbuf_grow f 10).2)) ∨
    (∃ m, (fbuf_grow f 10).1 = 0 ∧ (fbuf_grow f 10).2.buf = some m ∧
      (((decRepr n).length > (fbuf_grow f 10).2.size - (fbuf_grow f 10).2.used ∧
        fbuf_putint f n = (-1,
          { size := (fbuf_grow f 10).2.size, used := (fbuf_grow f 10).2.used,
            buf := some (snprintfStore m (fbuf_grow f 10).2.used
              ((fbuf_grow f 10).2.size - (fbuf_grow f 10).2.used) (decRepr n)) })) ∨
       ((decRepr n).length ≤ (fbuf_grow f 10).2.size - (fbuf_grow f 10).2.used ∧
        fbuf_putint f n = (Int.ofNat (decRepr n).length,
          { size := (fbuf_grow f 10).2.size,
            used := (fbuf_grow f 10).2.used + (decRepr n).length,
            buf := some (snprintfStore m (fbuf_grow f 10).2.used
              ((fbuf_grow f 10).2.size - (fbuf_grow f 10).2.used) (decRepr n)) })))) := by
  by_cases hz : (fbuf_grow f 10).1 ≠ 0
  · exact Or.inl ⟨hz, by unfold fbuf_putint; rw [if_pos hz]⟩
  · push_neg at hz
    cases hb : (fbuf_grow f 10).2.buf with
    | none =>
      refine Or.inr (Or.inl ⟨hz, rfl, ?_⟩)
      unfold fbuf_putint
      rw [if_neg (by simp [hz]), hb]
    | some m =>
      by_cases hover : (decRepr n).length > (fbuf_grow f 10).2.size - (fbuf_grow f 10).2.used
      · refine Or.inr (Or.inr ⟨m, hz, rfl, Or.inl ⟨hover, ?_⟩⟩)
        unfold fbuf_putint
        rw [if_neg (by simp [hz]), hb]
        change ite _ _ _ = _
        rw [if_pos hover]
      · refine Or.inr (Or.inr ⟨m, hz, rfl, Or.inr ⟨by omega, ?_⟩⟩)
        unfold fbuf_putint
        rw [if_neg (by simp [hz]), hb]
        change ite _ _ _ = _
        rw [if_neg hover]

theorem fbuf_printf_cases (f : fbuf) (out : List Nat) :
    ((fbuf_grow f BUFSIZ).1 < 0 ∧ fbuf_printf f out = (-1, (fbuf_grow f BUFSIZ).2)) ∨
    (¬ ((fbuf_grow f BUFSIZ).1 < 0) ∧ (fbuf_grow f BUFSIZ).2.buf = none ∧
      fbuf_printf f out = (-1, (fbuf_grow f BUFSIZ).2)) ∨
    (∃ m, ¬ ((fbuf_grow f BUFSIZ).1 < 0) ∧ (fbuf_grow f BUFSIZ).2.buf = some m ∧
      ((out.length ≥ (fbuf_grow f BUFSIZ).2.size - (fbuf_grow f BUFSIZ).2.used ∧
        fbuf_printf f out = (-1,
          { size := (fbuf_grow f BUFSIZ).2.size, used := (fbuf_grow f BUFSIZ).2.used,
            buf := some (snprintfStore m (fbuf_grow f BUFSIZ).2.used
              ((fbuf_grow f BUFSIZ).2.size - (fbuf_grow f BUFSIZ).2.used) out) })) ∨
       (out.length < (fbuf_grow f BUFSIZ).2.size - (fbuf_grow f BUFSIZ).2.used ∧
        fbuf_printf f out = (Int.ofNat out.length,
          { size := (fbuf_grow f BUFSIZ).2.size,
            used := (fbuf_grow f BUFSIZ).2.used + out.length,
            buf := some (snprintfStore m (fbuf_grow f BUFSIZ).2.used
              ((fbuf_grow f BUFSIZ).2.size - (fbuf_grow f BUFSIZ).2.used) out) })))) := by
  by_cases hz : (fbuf_grow f BUFSIZ).1 < 0
  · exact Or.inl ⟨hz, by unfold fbuf_printf; rw [if_pos hz]⟩
  · cases hb : (fbuf_grow f BUFSIZ).2.buf with
    | none =>
      refine Or.inr (Or.inl ⟨hz, rfl, ?_⟩)
      unfold fbuf_printf
      rw [if_neg hz, hb]
    | some m =>
      by_cases hover : out.length ≥ (fbuf_grow f BUFSIZ).2.size - (fbuf_grow f BUFSIZ).2.used
      · refine Or.inr (Or.inr ⟨m, hz, rfl, Or.inl ⟨hover, ?_⟩⟩)
        unfold fbuf_printf
        rw [if_neg hz, hb]
        change ite _ _ _ = _
        rw [if_pos hover]
      · refine Or.inr (Or.inr ⟨m, hz, rfl, Or.inr ⟨by omega, ?_⟩⟩)
        unfold fbuf_printf
        rw [if_neg hz, hb]
        change ite _ _ _ = _
        rw [if_neg hover]

theorem fbuf_putn_fail_preserves (f : fbuf) (s : List Nat) (h : (fbuf_putn f s).1 < 0) :
    (fbuf_putn f s).2.used = f.used ∧ fbuf_contents (fbuf_putn f s).2 = fbuf_contents f := by
  obtain ⟨hgu, hgb, -, hfail⟩ := fbuf_grow_state f s.length
  rcases fbuf_putn_cases f s with ⟨hz, he⟩ | ⟨hz, hb, he⟩ | ⟨m, hz, hb, he⟩
  · rw [he, hfail hz]
    exact ⟨rfl, rfl⟩
  · rw [he]
    exact ⟨hgu, contents_congr _ _ hgu hgb⟩
  · rw [he] at h
    exact absurd h (not_lt.mpr (Int.ofNat_nonneg _))

theorem fbuf_putc_eq_putn (f : fbuf) (c : Nat) : fbuf_putc f c = fbuf_putn f [c] := rfl

theorem fbuf_putc_fail_preserves (f : fbuf) (c : Nat) (h : (fbuf_putc f c).1 < 0) :
    (fbuf_putc f c).2.used = f.used ∧ fbuf_contents (fbuf_putc f c).2 = fbuf_contents f := by
  rw [fbuf_putc_eq_putn] at h ⊢
  exact fbuf_putn_fail_preserves f [c] h

theorem fbuf_putint_fail_preserves (f : fbuf) (n : Int) (h : (fbuf_putint f n).1 < 0) :
    (fbuf_putint f n).2.used = f.used ∧
    fbuf_contents (fbuf_putint f n).2 = fbuf_contents f := by
  obtain ⟨hgu, hgb, -, hfail⟩ := fbuf_grow_state f 10
  rcases fbuf_putint_cases f n with ⟨hz, he⟩ | ⟨hz, hb, he⟩ |
    ⟨m, hz, hb, ⟨hover, he⟩ | ⟨hover, he⟩⟩
  · rw [he, hfail hz]
    exact ⟨rfl, rfl⟩
  · rw [he]
    exact ⟨hgu, contents_congr _ _ hgu hgb⟩
  · rw [he]
    refine ⟨hgu, ?_⟩
    show (List.range (fbuf_grow f 10).2.used).map
        (snprintfStore m (fbuf_grow f 10).2.used _ (decRepr n)) = fbuf_contents f
    rw [snprintf_keeps_below _ _ _ _ _ (le_refl _)]
    have hfb : f.buf = some m := by rw [← hgb, hb]
    rw [hgu]
    unfold fbuf_contents
    rw [hfb]
  · rw [he] at h
    exact absurd h (not_lt.mpr (Int.ofNat_nonneg _))

theorem fbuf_printf_fail_preserves (f : fbuf) (out : List Nat)
    (h : (fbuf_printf f out).1 < 0) :
    (fbuf_printf f out).2.used = f.used ∧
    fbuf_contents (fbuf_printf f out).2 = fbuf_contents f := by
  obtain ⟨hgu, hgb, -, hfail⟩ := fbuf_grow_state f BUFSIZ
  rcases fbuf_printf_cases f out with ⟨hz, he⟩ | ⟨hz, hb, he⟩ |
    ⟨m, hz, hb, ⟨hover, he⟩ | ⟨hover, he⟩⟩
  · rw [he, hfail (by omega)]
    exact ⟨rfl, rfl⟩
  · rw [he]
    exact ⟨hgu, contents_congr _ _ hgu hgb⟩
  · rw [he]
    refine ⟨hgu, ?_⟩
    show (List.range (fbuf_grow f BUFSIZ).2.used).map
        (snprintfStore m (fbuf_grow f BUFSIZ).2.used _ out) = fbuf_contents f
    rw [snprintf_keeps_below _ _ _ _ _ (le_refl _)]
    have hfb : f.buf = some m := by rw [← hgb, hb]
    rw [hgu]
    unfold fbuf_contents
    rw [hfb]
  · rw [he] at h
    exact absurd h (not_lt.mpr (Int.ofNat_nonneg _))

theorem fbuf_emit_fail_preserves (f : fbuf) (esc : Option (List Nat))
    (h : (fbuf_emit f esc).1 < 0) :
    (fbuf_emit f esc).2.used = f.used ∧ fbuf_contents (fbuf_emit f esc).2 = fbuf_contents f := by
  cases esc with
  | none => exact ⟨rfl, rfl⟩
  | some s =>
    have hred : fbuf_emit f (some s)
        = if (fbuf_puts f s).1 < 0 then (-1, (fbuf_puts f s).2) else (0, (fbuf_puts f s).2) := rfl
    rw [hred] at h ⊢
    by_cases hp : (fbuf_puts f s).1 < 0
    · rw [if_pos hp] at h ⊢
      exact fbuf_putn_fail_preserves f s hp
    · rw [if_neg hp] at h
      exact absurd h (by norm_num)

/-- C4 (amended): every write operation fails atomically in the logical
    sense: whenever PutByte, PutBytes, PutString, PutInteger, PutFormatted
    or EmitEscape returns failure (growth failure or FormatOverflow), the
    length and the logical content at offsets [0, length) are unchanged,
    and a pure growth failure leaves the whole state unchanged.  The
    original claim that a FormatOverflow leaves the buffer state entirely
    unchanged is amended: the capacity may have been increased by the
    growth step performed before formatting, and the formatter has already
    written into the unused region beyond length (see the
    counterexample). -/
theorem spec_C4 (f : fbuf) (c ng : Nat) (s t : List Nat) (n : Int) (out : List Nat)
    (esc : Option (List Nat)) :
    ((fbuf_putc f c).1 < 0 → (fbuf_putc f c).2.used = f.used ∧
      fbuf_contents (fbuf_putc f c).2 = fbuf_contents f) ∧
    ((fbuf_putn f s).1 < 0 → (fbuf_putn f s).2.used = f.used ∧
      fbuf_contents (fbuf_putn f s).2 = fbuf_contents f) ∧
    ((fbuf_puts f t).1 < 0 → (fbuf_puts f t).2.used = f.used ∧
      fbuf_contents (fbuf_puts f t).2 = fbuf_contents f) ∧
    ((fbuf_putint f n).1 < 0 → (fbuf_putint f n).2.used = f.used ∧
      fbuf_contents (fbuf_putint f n).2 = fbuf_contents f) ∧
    ((fbuf_printf f out).1 < 0 → (fbuf_printf f out).2.used = f.used ∧
      fbuf_contents (fbuf_printf f out).2 = fbuf_contents f) ∧
    ((fbuf_emit f esc).1 < 0 → (fbuf_emit f esc).2.used = f.used ∧
      fbuf_contents (fbuf_emit f esc).2 = fbuf_contents f) ∧
    ((fbuf_grow f ng).1 ≠ 0 → (fbuf_grow f ng).2 = f) :=
  ⟨fbuf_putc_fail_preserves f c, fbuf_putn_fail_preserves f s,
   fbuf_putn_fail_preserves f t, fbuf_putint_fail_preserves f n,
   fbuf_printf_fail_preserves f out, fbuf_emit_fail_preserves f esc,
   (fbuf_grow_state f ng).2.2.2⟩

theorem spec_C4_witness :
    (fbuf_putc
        { size := 9223372036854775808, used := 9223372036854775808, buf := some (fun _ => 0) }
        65).2.used = 9223372036854775808 ∧
    fbuf_contents (fbuf_putc
        { size := 9223372036854775808, used := 9223372036854775808, buf := some (fun _ => 0) }
        65).2
      = fbuf_contents
        { size := 9223372036854775808, used := 9223372036854775808, buf := some (fun _ => 0) } :=
  (spec_C4
    { size := 9223372036854775808, used := 9223372036854775808, buf := some (fun _ => 0) }
    65 0 [] [] 0 [] none).1 (by decide)

/-- C4 counterexample: on a buffer with capacity 8192 and length 5000, a
    PutFormatted whose rendered output is 12000 bytes fails with
    FormatOverflow (return -1), yet the capacity after the call is 16384,
    not 8192: the growth step had already run, so the buffer state is not
    unchanged as the claim states. -/
theorem spec_C4_cex :
    (fbuf_printf { size := 8192, used := 5000, buf := some (fun _ => 0) }
        (List.replicate 12000 66)).1 = -1 ∧
    (fbuf_printf { size := 8192, used := 5000, buf := some (fun _ => 0) }
        (List.replicate 12000 66)).2.size = 16384 ∧
    (fbuf_printf { size := 8192, used := 5000, buf := some (fun _ => 0) }
        (List.replicate 12000 66)).2.size ≠ 8192 := by
  have hgrow1 : (fbuf_grow { size := 8192, used := 5000, buf := some (fun _ => 0) } BUFSIZ).1
      = 0 := by decide
  have hgrows : (fbuf_grow { size := 8192, used := 5000, buf := some (fun _ => 0) } BUFSIZ).2.size
      = 16384 := by decide
  have hgrowu : (fbuf_grow { size := 8192, used := 5000, buf := some (fun _ => 0) } BUFSIZ).2.used
      = 5000 := by decide
  obtain ⟨-, hgb, -, -⟩ :=
    fbuf_grow_state { size := 8192, used := 5000, buf := some (fun _ => 0) } BUFSIZ
  have hr : (fbuf_printf { size := 8192, used := 5000, buf := some (fun _ => 0) }
      (List.replicate 12000 66)).1 = -1 := by
    rcases fbuf_printf_cases { size := 8192, used := 5000, buf := some (fun _ => 0) }
        (List.replicate 12000 66) with ⟨hz, -⟩ | ⟨-, hb, -⟩ |
        ⟨m, -, hb, ⟨-, he⟩ | ⟨hover, -⟩⟩
    · rw [hgrow1] at hz
      exact absurd hz (by norm_num)
    · rw [hgb] at hb
      simp at hb
    · rw [he]
    · rw [List.length_replicate, hgrows, hgrowu] at hover
      omega
  have hsz : (fbuf_printf { size := 8192, used := 5000, buf := some (fun _ => 0) }
      (List.replicate 12000 66)).2.size = 16384 := by
    rcases fbuf_printf_cases { size := 8192, used := 5000, buf := some (fun _ => 0) }
        (List.replicate 12000 66) with ⟨hz, -⟩ | ⟨-, hb, -⟩ |
        ⟨m, -, hb, ⟨-, he⟩ | ⟨hover, -⟩⟩
    · rw [hgrow1] at hz
      exact absurd hz (by norm_num)
    · rw [hgb] at hb
      simp at hb
    · rw [he]
      exact hgrows
    · rw [List.length_replicate, hgrows, hgrowu] at hover
      omega
  refine ⟨hr, hsz, ?_⟩
  rw [hsz]
  norm_num

theorem fbufInv_grow (f : fbuf) (n : Nat) (h : fbufInv f) : fbufInv (fbuf_grow f n).2 := by
  obtain ⟨hgu, -, hgs, -⟩ := fbuf_grow_state f n
  unfold fbufInv at h ⊢
  omega

theorem fbufInv_putn (f : fbuf) (s : List Nat) (h : fbufInv f) : fbufInv (fbuf_putn f s).2 := by
  have hg := fbufInv_grow f s.length h
  rcases fbuf_putn_cases f s with ⟨-, he⟩ | ⟨-, -, he⟩ | ⟨m, hz, -, he⟩
  · rw [he]; exact hg
  · rw [he]; exact hg
  · rw [he]
    have hle := fbuf_grow_zero_le f s.length h hz
    obtain ⟨hgu, -, -, -⟩ := fbuf_grow_state f s.length
    show (fbuf_grow f s.length).2.used + s.length ≤ (fbuf_grow f s.length).2.size
    omega

theorem fbufInv_putc (f : fbuf) (c : Nat) (h : fbufInv f) : fbufInv (fbuf_putc f c).2 := by
  rw [fbuf_putc_eq_putn]
  exact fbufInv_putn f [c] h

theorem fbufInv_putint (f : fbuf) (n : Int) (h : fbufInv f) : fbufInv (fbuf_putint f n).2 := by
  have hg := fbufInv_grow f 10 h
  rcases fbuf_putint_cases f n with ⟨-, he⟩ | ⟨-, -, he⟩ | ⟨m, -, -, ⟨-, he⟩ | ⟨hover, he⟩⟩
  · rw [he]; exact hg
  · rw [he]; exact hg
  · rw [he]
    show (fbuf_grow f 10).2.used ≤ (fbuf_grow f 10).2.size
    exact hg
  · rw [he]
    show (fbuf_grow f 10).2.used + (decRepr n).length ≤ (fbuf_grow f 10).2.size
    unfold fbufInv at hg
    omega

theorem fbufInv_printf (f : fbuf) (out : List Nat) (h : fbufInv f) :
    fbufInv (fbuf_printf f out).2 := by
  have hg := fbufInv_grow f BUFSIZ h
  rcases fbuf_printf_cases f out with ⟨-, he⟩ | ⟨-, -, he⟩ | ⟨m, -, -, ⟨-, he⟩ | ⟨hover, he⟩⟩
  · rw [he]; exact hg
  · rw [he]; exact hg
  · rw [he]
    show (fbuf_grow f BUFSIZ).2.used ≤ (fbuf_grow f BUFSIZ).2.size
    exact hg
  · rw [he]
    show (fbuf_grow f BUFSIZ).2.used + out.length ≤ (fbuf_grow f BUFSIZ).2.size
    unfold fbufInv at hg
    omega

theorem fbufInv_emit (f : fbuf) (esc : Option (List Nat)) (h : fbufInv f) :
    fbufInv (fbuf_emit f esc).2 := by
  cases esc with
  | none => exact h
  | some s =>
    have hred : fbuf_emit f (some s)
        = if (fbuf_puts f s).1 < 0 then (-1, (fbuf_puts f s).2) else (0, (fbuf_puts f s).2) := rfl
    rw [hred]
    by_cases hp : (fbuf_puts f s).1 < 0
    · rw [if_pos hp]
      exact fbufInv_putn f s h
    · rw [if_neg hp]
      exact fbufInv_putn f s h

/-- C6: the invariant length <= capacity holds after initialization (small
    and large) and is preserved by every operation of the interface:
    EnsureCapacity, PutByte, PutBytes, PutString, PutInteger, PutFormatted,
    EmitEscape, Reset, Release, and FinalizeTo. -/
theorem spec_C6 (f0 f : fbuf) (ng c : Nat) (s t out : List Nat) (n : Int)
    (esc : Option (List Nat)) (fp : File) (flushfp writeOk flushOk : Bool)
    (h : fbufInv f) :
    fbufInv (fbuf_init_small f0).2 ∧ fbufInv (fbuf_init f0).2 ∧
    fbufInv (fbuf_grow f ng).2 ∧ fbufInv (fbuf_putc f c).2 ∧
    fbufInv (fbuf_putn f s).2 ∧ fbufInv (fbuf_puts f t).2 ∧
    fbufInv (fbuf_putint f n).2 ∧ fbufInv (fbuf_printf f out).2 ∧
    fbufInv (fbuf_emit f esc).2 ∧ fbufInv (fbuf_reset f) ∧ fbufInv (fbuf_free f) ∧
    fbufInv (fbuf_finalize f fp flushfp writeOk flushOk).2.2 :=
  ⟨Nat.zero_le _, Nat.zero_le _, fbufInv_grow f ng h, fbufInv_putc f c h,
   fbufInv_putn f s h, fbufInv_putn f t h, fbufInv_putint f n h,
   fbufInv_printf f out h, fbufInv_emit f esc h, Nat.zero_le _, Nat.zero_le _,
   Nat.zero_le _⟩

theorem spec_C6_witness :
    fbufInv (fbuf_putn { size := 8192, used := 100, buf := some (fun _ => 0) } [1, 2, 3]).2 ∧
    fbufInv (fbuf_putint { size := 8192, used := 100, buf := some (fun _ => 0) } (-77)).2 ∧
    fbufInv (fbuf_reset { size := 8192, used := 100, buf := some (fun _ => 0) }) := by
  have h := spec_C6 { size := 0, used := 0, buf := none }
    { size := 8192, used := 100, buf := some (fun _ => 0) } 4 65 [1, 2, 3] [4] [5] (-77)
    none { written := [], flushes := 0 } true true true
    (by show (100 : Nat) ≤ 8192; decide)
  exact ⟨h.2.2.2.2.1, h.2.2.2.2.2.2.1, h.2.2.2.2.2.2.2.2.2.1⟩

/-- C5: FinalizeTo(sink, flushSink): when length > 0 it writes exactly the
    length bytes starting at offset 0 to the sink, failing with -1 when the
    full write does not succeed (sink unchanged then); the sink is flushed
    exactly when flushSink is set and no write error occurred (and the
    flush succeeds), with flush failure also reported as -1; it returns 0
    iff the write (when attempted) and the flush (when requested) both
    succeeded; and regardless of outcome the buffer is released (capacity
    and length zeroed, region cleared). -/
theorem spec_C5 (f : fbuf) (fp : File) (flushfp writeOk flushOk : Bool) :
    (f.used ≠ 0 → writeOk = true →
       (fbuf_finalize f fp flushfp writeOk flushOk).2.1.written = fp.written ++ fbuf_contents f) ∧
    (f.used ≠ 0 → writeOk = false →
       (fbuf_finalize f fp flushfp writeOk flushOk).1 = -1 ∧
       (fbuf_finalize f fp flushfp writeOk flushOk).2.1.written = fp.written) ∧
    (f.used = 0 →
       (fbuf_finalize f fp flushfp writeOk flushOk).2.1.written = fp.written) ∧
    ((fbuf_finalize f fp flushfp writeOk flushOk).2.1.flushes ≠ fp.flushes →
       flushfp = true ∧ (f.used = 0 ∨ writeOk = true)) ∧
    (flushfp = true → (f.used = 0 ∨ writeOk = true) → flushOk = true →
       (fbuf_finalize f fp flushfp writeOk flushOk).2.1.flushes = fp.flushes + 1) ∧
    (flushfp = true → (f.used = 0 ∨ writeOk = true) → flushOk = false →
       (fbuf_finalize f fp flushfp writeOk flushOk).1 = -1) ∧
    ((fbuf_finalize f fp flushfp writeOk flushOk).1 = 0 ↔
       ((f.used ≠ 0 → writeOk = true) ∧ (flushfp = true → flushOk = true))) ∧
    (fbuf_finalize f fp flushfp writeOk flushOk).2.2 = { size := 0, used := 0, buf := none } := by
  by_cases hu : f.used = 0 <;> cases flushfp <;> cases writeOk <;> cases flushOk <;>
    simp [fbuf_finalize, fwriteModel, fflushModel, cEOF, fbuf_free, hu]

theorem spec_C5_witness :
    (fbuf_finalize (fbuf_init_small { size := 0, used := 0, buf := none }).2
        { written := [], flushes := 0 } true true true).1 = 0 ∧
    (fbuf_finalize (fbuf_init_small { size := 0, used := 0, buf := none }).2
        { written := [], flushes := 0 } true true true).2.1.written = [] ∧
    (fbuf_finalize (fbuf_init_small { size := 0, used := 0, buf := none }).2
        { written := [], flushes := 0 } true true true).2.1.flushes = 1 ∧
    (fbuf_finalize (fbuf_init_small { size := 0, used := 0, buf := none }).2
        { written := [], flushes := 0 } true true true).2.2
      = { size := 0, used := 0, buf := none } := by
  have h := spec_C5 (fbuf_init_small { size := 0, used := 0, buf := none }).2
    { written := [], flushes := 0 } true true true
  refine ⟨?_, ?_, ?_, h.2.2.2.2.2.2.2⟩
  · exact h.2.2.2.2.2.2.1.mpr ⟨fun _ => rfl, fun _ => rfl⟩
  · exact h.2.2.1 rfl
  · exact h.2.2.2.2.1 rfl (Or.inl rfl) rfl

/-- C2, evaluated at the failing inputs: fbuf_putint reserves only 10 bytes
    of headroom, but the worst-case decimal representation of a 32-bit
    signed integer including its sign, -2147483648, is 11 characters.  On a
    buffer with exactly the reserved 10 bytes of headroom (capacity 8192,
    length 8182 — reachable by writing 8182 bytes after Initialize(small)),
    PutInteger(-2147483648) fails with -1 and leaves length unchanged,
    taking the branch whose assert(r <= size - used) the code itself claims
    unreachable; and PutInteger(1234567890) (10 characters) is accepted,
    advancing length by 10, yet the byte at the last written offset is the
    snprintf NUL terminator 0 instead of the final digit 48, so the
    appended bytes are not the decimal representation.  The concrete
    scenario of the claim does hold: after Initialize(small),
    PutInteger(12345) gives length 5 and content 12345. -/
theorem spec_C2_bug :
    (fbuf_putint { size := 8192, used := 8182, buf := some (fun _ => 0) }
        (-2147483648)).1 = -1 ∧
    (fbuf_putint { size := 8192, used := 8182, buf := some (fun _ => 0) }
        (-2147483648)).2.used = 8182 ∧
    (decRepr (-2147483648)).length = 11 ∧
    (fbuf_putint { size := 8192, used := 8182, buf := some (fun _ => 0) }
        1234567890).1 = 10 ∧
    (fbuf_putint { size := 8192, used := 8182, buf := some (fun _ => 0) }
        1234567890).2.used = 8192 ∧
    byteAt (fbuf_putint { size := 8192, used := 8182, buf := some (fun _ => 0) }
        1234567890).2 8191 = 0 ∧
    (decRepr 1234567890).getD 9 0 = 48 ∧
    (fbuf_putint (fbuf_init_small { size := 0, used := 0, buf := none }).2 12345).2.used = 5 ∧
    fbuf_contents (fbuf_putint (fbuf_init_small { size := 0, used := 0, buf := none }).2
        12345).2 = [49, 50, 51, 52, 53] := by
  refine ⟨?_, ?_, ?_, ?_, ?_, ?_, ?_, ?_, ?_⟩ <;> decide
